import Mathlib

/-!
Verification of the VibeCodePulse extraction-and-verification pipeline.

The TypeScript source is embedded shallowly: strings are lists of
characters (`Str`), the JavaScript string methods used by the code
(`trim`, `split`, `includes`, `startsWith`, `toLowerCase`, ...) are
translated as executable functions on `Str`, and each source function
(`sanitizeUrl`, `generateIdFromUrl`, `withRetry`, `verifyLinks`,
`parseGroundedNews`, the merge inside `loadNews`, the sort inside
`filteredNews`) becomes a Lean definition translated line by line from
`src/services/geminiService.ts` and `src/App.tsx`.  The repository holds
two revisions of `geminiService.ts` in one file; where they differ the
definitions carry a `V1` (first revision, lines 1-275) or `V2` (second
revision, lines 277-566) suffix.
-/

namespace VibePulse

set_option maxRecDepth 40000

/-- Strings are modelled as lists of characters. -/
abbrev Str := List Char

/-- Whitespace test used for JavaScript `trim` and the regex class `\s`
(the ASCII part, which is all the pipeline relies on). -/
def isWsC (c : Char) : Bool := c.isWhitespace

/-- JavaScript `String.prototype.trim`: drop whitespace from both ends. -/
def trimL (l : Str) : Str :=
  ((l.dropWhile isWsC).reverse.dropWhile isWsC).reverse

/-- JavaScript `haystack.includes(needle)`. -/
def containsL (h n : Str) : Bool :=
  match h with
  | [] => n.isEmpty
  | _ :: t => n.isPrefixOf h || containsL t n

/-- JavaScript `String.prototype.toLowerCase` (ASCII range). -/
def lowerL (l : Str) : Str := l.map Char.toLower

/-- JavaScript falsy-string short-circuit `a || b`. -/
def jsOr (a b : Str) : Str := if a = [] then b else a

/-- Auxiliary for `splitOnL`: scan the list, cutting at every
non-overlapping occurrence of the separator `c0 :: s`.  The extra `fuel`
argument only makes the recursion structural (each step consumes at
least one character, so with `fuel` starting at the list length the
zero-fuel branch is never reached). -/
def splitOnAux (c0 : Char) (s : List Char) : Nat → List Char → List Char → List (List Char)
  | _, [], acc => [acc.reverse]
  | 0, _ :: _, acc => [acc.reverse]
  | fuel + 1, c :: rest, acc =>
    if (c0 :: s).isPrefixOf (c :: rest) then
      acc.reverse :: splitOnAux c0 s fuel (rest.drop s.length) []
    else
      splitOnAux c0 s fuel rest (c :: acc)

/-- JavaScript `String.prototype.split` with a non-empty string separator. -/
def splitOnL (sep : Str) (l : Str) : List Str :=
  match sep with
  | [] => [l]
  | c0 :: s => splitOnAux c0 s l.length l []

/-- Split a list at every character satisfying `p` (used for the regex
`split(/\s+/)`; the parser filters out short words afterwards, which
erases the difference between splitting on runs and on single characters). -/
def splitCharP (p : Char → Bool) : Str → List Str
  | [] => [[]]
  | c :: rest =>
    match splitCharP p rest with
    | [] => [[]]
    | h :: t => if p c then [] :: h :: t else (c :: h) :: t

/-!  `sanitizeUrl` — `src/services/geminiService.ts` lines 10-30 (the same
function appears verbatim in both revisions). -/

/-- Regex character class `[^\s\)]` of the markdown-link pattern. -/
def urlBodyChar (c : Char) : Bool := !isWsC c && c != ')'

/-- Attempt of the markdown regex at one `(`: the text after the paren
must read `http://` or `https://`, then a non-empty run of `[^\s)]`
characters, then `)`; the capture is the scheme plus the run. -/
def tryParen (l : Str) : Option Str :=
  if ("https://".data).isPrefixOf l then
    let run := (l.drop 8).takeWhile urlBodyChar
    if run ≠ [] ∧ ((l.drop 8).drop run.length).head? = some ')' then
      some ("https://".data ++ run)
    else none
  else if ("http://".data).isPrefixOf l then
    let run := (l.drop 7).takeWhile urlBodyChar
    if run ≠ [] ∧ ((l.drop 7).drop run.length).head? = some ')' then
      some ("http://".data ++ run)
    else none
  else none

/-- First capture of the regex `\[?.*?\]?\((https?:\/\/[^\s\)]+)\)`:
the leftmost `(` followed by a well-formed `http(s)://...` body and `)`. -/
def mdCapture : Str → Option Str
  | [] => none
  | c :: rest =>
    if c = '(' then
      match tryParen rest with
      | some u => some u
      | none => mdCapture rest
    else mdCapture rest

/-- Regex `replace(/[.,;!]$/, '')`: drop one trailing punctuation mark. -/
def dropTrailingPunct (l : Str) : Str :=
  match l.getLast? with
  | some c => if c = '.' ∨ c = ',' ∨ c = ';' ∨ c = '!' then l.dropLast else l
  | none => l

/-- Markdown extraction step of `sanitizeUrl` (lines 15-16): replace the
text by the regex capture when the pattern matches. -/
def mdApply (c1 : Str) : Str :=
  match mdCapture c1 with
  | some u => u
  | none => c1

/-- The rejection-and-scheme tail of `sanitizeUrl` (lines 22-29), applied
to the cleaned text. -/
def sanitizeTail (clean : Str) : Str :=
  if containsL clean ("...".data) ∧ clean.length < 20 then []
  else if containsL clean ("example.com".data) ∨ containsL clean ("your-url-here".data) then []
  else if clean ≠ [] ∧ ¬ ("http".data.isPrefixOf clean) ∧ containsL clean ['.'] then
    "https://".data ++ clean
  else clean

/-- Clean and validate a URL from the LLM
(`sanitizeUrl`, geminiService.ts lines 10-30). -/
def sanitizeUrl (url : Str) : Str :=
  if url = [] then []
  else sanitizeTail (dropTrailingPunct (mdApply (trimL url)))

/-!  `generateIdFromUrl` — geminiService.ts lines 35-43. -/

/-- UTF-16 code units of a string, as `charCodeAt` enumerates them. -/
def utf16Units (s : Str) : List Nat :=
  s.flatMap fun c =>
    let n := c.toNat
    if n < 0x10000 then [n]
    else [0xD800 + (n - 0x10000) / 0x400, 0xDC00 + (n - 0x10000) % 0x400]

/-- JavaScript `| 0`: wrap an exact integer to a signed 32-bit value. -/
def toInt32 (n : Int) : Int := (n + 2 ^ 31) % 2 ^ 32 - 2 ^ 31

/-- One iteration of the hash loop:
`hash = ((hash << 5) - hash) + char; hash |= 0`.
`hash << 5` itself wraps to 32 bits before the subtraction. -/
def hashStep (h : Int) (c : Nat) : Int := toInt32 (toInt32 (h * 32) - h + c)

/-- The rolling 32-bit hash, seeded at 0. -/
def hashOf (units : List Nat) : Int := units.foldl hashStep 0

/-- Digit characters of `Number.prototype.toString(36)`: `0-9` then `a-z`. -/
def base36Digit (n : Nat) : Char :=
  if n < 10 then Char.ofNat (48 + n) else Char.ofNat (87 + n)

/-- Auxiliary for `natToBase36`, most significant digit first.  `fuel`
makes the recursion structural; starting it at `n` itself is enough
because `n / 36 < n` whenever `36 ≤ n`. -/
def natToBase36Aux : Nat → Nat → List Char → List Char
  | 0, n, acc => base36Digit (n % 36) :: acc
  | fuel + 1, n, acc =>
    if n < 36 then base36Digit n :: acc
    else natToBase36Aux fuel (n / 36) (base36Digit (n % 36) :: acc)

/-- JavaScript `n.toString(36)` for a non-negative integer. -/
def natToBase36 (n : Nat) : Str := natToBase36Aux n n []

/-- Deterministic ID generation
(`generateIdFromUrl`, geminiService.ts lines 35-43). -/
def generateIdFromUrl (url : Str) : Str :=
  "vibe-".data ++ natToBase36 (hashOf (utf16Units url)).natAbs

/-!  Data model — `src/types.ts` (`NewsItem`, augmented in `App.tsx` with
the transient `isNew` flag) and the grounding-chunk shapes consumed by
`verifyLinks`.  The enum-like tag fields are loose strings in the source
(cast through `any`), so they are strings here. -/

/-- A news record; `isNew` is the flag `App.tsx` adds on merge (absent is
modelled as `false`, matching the falsy reading of `undefined`). -/
structure NewsItem where
  id : Str
  title : Str
  snippet : Str
  source : Str
  platform : Str
  url : Str
  category : Str
  tool : Str
  publishedAt : Str
  isNew : Bool
deriving DecidableEq, Repr

/-- The `web` payload of a grounding chunk; `uri` and `title` may be
absent, as the source guards with `c.web && c.web.uri` and
`c.web.title || ""`. -/
structure WebRef where
  uri : Option Str
  title : Option Str
deriving DecidableEq, Repr

/-- A grounding chunk as `verifyLinks` receives it. -/
structure Chunk where
  web : Option WebRef
deriving DecidableEq, Repr

/-- A verified citation after the filter-and-map at the start of
`verifyLinks` (V2, lines 338-340): kept only when `c.web.uri` is truthy,
title lowercased with `""` for a missing one. -/
structure Citation where
  uri : Str
  title : Str
deriving DecidableEq, Repr

/-- JavaScript `x || ""` on an optional string field. -/
def orEmpty : Option Str → Str
  | some s => s
  | none => []

/-- The filter-and-map at the start of `verifyLinks` (V2):
`groundingChunks.filter(c => c.web && c.web.uri).map(c => ({uri: c.web.uri,
title: (c.web.title || "").toLowerCase()}))`. -/
def extractCitations (chunks : List Chunk) : List Citation :=
  chunks.filterMap fun c =>
    match c.web with
    | none => none
    | some w =>
      match w.uri with
      | none => none
      | some u => if u = [] then none else some ⟨u, lowerL (orEmpty w.title)⟩

/-!  `verifyLinks` — second revision, geminiService.ts lines 337-381. -/

/-- Words of a citation title longer than three characters:
`chunk.title.split(/\s+/).filter(w => w.length > 3)`. -/
def longWords (title : Str) : List Str :=
  (splitCharP isWsC title).filter fun w => 3 < w.length

/-- Overlap score of one citation against the lowercased item title:
`chunkWords.filter(w => itemTitleLower.includes(w)).length`. -/
def overlapCount (titleLower : Str) (c : Citation) : Nat :=
  (longWords c.title).countP fun w => containsL titleLower w

/-- The fuzzy-match loop of `verifyLinks` (V2, lines 353-364): running
best citation and maximal overlap, updated only on a strict improvement
(so ties keep the first occurrence). -/
def bestStep (titleLower : Str) (acc : Citation × Nat) (c : Citation) : Citation × Nat :=
  if acc.2 < overlapCount titleLower c then (c, overlapCount titleLower c) else acc

/-- Result of the loop, started from `(verifiedChunks[0], 0)`. -/
def bestCitation (titleLower : Str) (c0 : Citation) (cites : List Citation) : Citation × Nat :=
  cites.foldl (bestStep titleLower) (c0, 0)

/-- Body of the `items.map` in `verifyLinks` (V2, lines 344-380) for one
item, given the non-empty verified citation list `c0 :: _ = cites`. -/
def verifyOne (c0 : Citation) (cites : List Citation) (item : NewsItem) : NewsItem :=
  let titleLower := lowerL item.title
  if cites.any fun c => c.uri = item.url then item
  else
    let best := bestCitation titleLower c0 cites
    let isSuspect := containsL item.url ("...".data) || item.url.length < 15
    if 0 < best.2 ∨ isSuspect = true then
      { item with
        url := best.1.uri
        id := generateIdFromUrl best.1.uri
        source :=
          if 30 < best.1.title.length then best.1.title.take 30 ++ "...".data
          else jsOr best.1.title item.source }
    else item

/-- Cross-references parsed items with verified grounding metadata chunks
(`verifyLinks`, V2, geminiService.ts lines 337-381). -/
def verifyLinks (items : List NewsItem) (chunks : List Chunk) : List NewsItem :=
  match extractCitations chunks with
  | [] => items
  | c0 :: rest => items.map (verifyOne c0 (c0 :: rest))

/-!  `parseGroundedNews` — both revisions (V1: lines 96-136, V2: lines
383-423).  They share the line protocol and differ in the push guard
(`title && url` vs `title`), the id key (`url` vs `url || title`) and the
exact leading-markup character class.  `new Date().toISOString()` is the
only impure expression; it enters as the explicit `now` parameter. -/

/-- Leading-markup class of the V1 title strip `replace(/^[#\s*\-â€¢]+/, '')`
(the bullet glyph appears as three mojibake characters in that revision). -/
def titleJunkV1 (c : Char) : Bool :=
  c = '#' || isWsC c || c = '*' || c = '-' || c = 'â' || c = '€' || c = '¢'

/-- Leading-markup class of the V2 title strip `replace(/^[#\s*\-•]+/, '')`. -/
def titleJunkV2 (c : Char) : Bool :=
  c = '#' || isWsC c || c = '*' || c = '-' || c = '•'

/-- Fields of one line: the text after the `[ITEM]` marker split on `>>>`
and trimmed (`line.split('[ITEM]')[1] || ""` then
`segment.split('>>>').map(p => p.trim())`). -/
def lineFields (line : Str) : List Str :=
  (splitOnL (">>>".data) (((splitOnL ("[ITEM]".data) line).get? 1).getD [])).map trimL

/-- One loop iteration of V1 `parseGroundedNews` (lines 100-131): zero or
one records from one line.  A line without the marker, or with fewer than
five fields, or with an empty title or empty sanitized URL, yields `[]`. -/
def parseLineV1 (now : Str) (line : Str) : List NewsItem :=
  if containsL line ("[ITEM]".data) then
    let parts := lineFields line
    if 5 ≤ parts.length then
      let title := (parts.get? 0).getD []
      let url := sanitizeUrl ((parts.get? 4).getD [])
      if title ≠ [] ∧ url ≠ [] then
        [{ id := generateIdFromUrl url
           title := title.dropWhile titleJunkV1
           snippet := jsOr ((parts.get? 1).getD []) ("Community update captured.".data)
           source := jsOr ((parts.get? 2).getD []) ("Intel Feed".data)
           platform := jsOr ((parts.get? 3).getD []) ("News".data)
           url := url
           category := jsOr (lowerL ((parts.get? 5).getD [])) ("community".data)
           tool := jsOr ((parts.get? 6).getD []) ("General AI".data)
           publishedAt := jsOr ((parts.get? 7).getD []) now
           isNew := false }]
      else []
    else []
  else []

/-- One loop iteration of V2 `parseGroundedNews` (lines 387-418): as V1
but the guard is `title` alone and the id key is `url || title`. -/
def parseLineV2 (now : Str) (line : Str) : List NewsItem :=
  if containsL line ("[ITEM]".data) then
    let parts := lineFields line
    if 5 ≤ parts.length then
      let title := (parts.get? 0).getD []
      let url := sanitizeUrl ((parts.get? 4).getD [])
      if title ≠ [] then
        [{ id := generateIdFromUrl (jsOr url title)
           title := title.dropWhile titleJunkV2
           snippet := jsOr ((parts.get? 1).getD []) ("Community update captured.".data)
           source := jsOr ((parts.get? 2).getD []) ("Intel Feed".data)
           platform := jsOr ((parts.get? 3).getD []) ("News".data)
           url := url
           category := jsOr (lowerL ((parts.get? 5).getD [])) ("community".data)
           tool := jsOr ((parts.get? 6).getD []) ("General AI".data)
           publishedAt := jsOr ((parts.get? 7).getD []) now
           isNew := false }]
      else []
    else []
  else []

/-- The `rawItems` accumulated by V1 `parseGroundedNews` over
`text.split('\n')`. -/
def rawItemsV1 (now : Str) (text : Str) : List NewsItem :=
  (splitOnL ['\n'] text).flatMap (parseLineV1 now)

/-- The `rawItems` accumulated by V2 `parseGroundedNews`. -/
def rawItemsV2 (now : Str) (text : Str) : List NewsItem :=
  (splitOnL ['\n'] text).flatMap (parseLineV2 now)

/-- V2 `parseGroundedNews` (lines 383-423): parse, then
`verifyLinks(rawItems, groundingChunks)`. -/
def parseGroundedNewsV2 (now : Str) (text : Str) (chunks : List Chunk) : List NewsItem :=
  verifyLinks (rawItemsV2 now text) chunks

/-!  The merge inside `loadNews` — `src/App.tsx` lines 96-105: a `Map`
keyed by id, existing history first with `isNew` cleared, then incoming
items inserted only when their id is absent. -/

/-- JavaScript `Map.prototype.set`: update in place when the key exists,
append otherwise (insertion order is preserved). -/
def mapSet (m : List (Str × NewsItem)) (k : Str) (v : NewsItem) : List (Str × NewsItem) :=
  match m with
  | [] => [(k, v)]
  | (k₁, v₁) :: rest => if k₁ = k then (k, v) :: rest else (k₁, v₁) :: mapSet rest k v

/-- Keys of the modelled `Map`, in insertion order. -/
def mapKeys (m : List (Str × NewsItem)) : List Str := m.map Prod.fst

/-- The merge of `loadNews` (App.tsx lines 96-105):
`prev.forEach(item => newsMap.set(item.id, {...item, isNew: false}))`,
then `data.items.forEach(item => { if (!newsMap.has(item.id))
newsMap.set(item.id, {...item, isNew: true}) })`, then
`Array.from(newsMap.values())`. -/
def mergeNews (prev incoming : List NewsItem) : List NewsItem :=
  let m1 := prev.foldl (fun m it => mapSet m it.id { it with isNew := false }) []
  let m2 := incoming.foldl
    (fun m it => if it.id ∈ mapKeys m then m else mapSet m it.id { it with isNew := true }) m1
  m2.map Prod.snd

/-!  The sort inside `filteredNews` — `src/App.tsx` lines 140-144.
`new Date(s).getTime()` is a runtime primitive with no source in the
repository, so it enters as an explicit total function `getTime`. -/

/-- The comparator of `filteredNews` (App.tsx lines 141-143). -/
def jsCmp (getTime : Str → Int) (a b : NewsItem) : Int :=
  if a.isNew && !b.isNew then -1
  else if !a.isNew && b.isNew then 1
  else getTime b.publishedAt - getTime a.publishedAt

/-- The `result.sort(...)` of `filteredNews`: a stable sort under the
comparator (ECMAScript mandates a stable `Array.prototype.sort`). -/
def sortNews (getTime : Str → Int) (items : List NewsItem) : List NewsItem :=
  items.mergeSort fun a b => jsCmp getTime a b ≤ 0

/-!  `withRetry` — geminiService.ts lines 45-56 (identical in both
revisions).  The fallible upstream call is modelled as a function from
the attempt number to a result; the returned trace lists the delay slept
before each re-attempt, so the retry count and the backoff schedule are
observable. -/

/-- A thrown upstream error: optional HTTP status and a message
(`error?.status`, `error?.message`). -/
structure JsError where
  status : Option Nat
  message : Str
deriving DecidableEq, Repr

/-- The retryability test of `withRetry` (line 49):
`error?.status === 503 || error?.status === 429 ||
error?.message?.includes('overloaded')`. -/
def isRetryable (e : JsError) : Bool :=
  e.status = some 503 || e.status = some 429 || containsL e.message ("overloaded".data)

/-- `withRetry(fn, retries, delay)` (lines 45-56), from attempt number
`attempt`: returns the settled result and the list of delays slept.  The
guard `retries > 0 && isRetryable` is rendered as the match on
`(retries, isRetryable e)`, recursing with `retries - 1`. -/
def withRetry {T : Type} (fn : Nat → Except JsError T) (retries delay attempt : Nat) :
    Except JsError T × List Nat :=
  match fn attempt with
  | .ok v => (.ok v, [])
  | .error e =>
    match retries with
    | 0 => (.error e, [])
    | r + 1 =>
      if isRetryable e then
        let rest := withRetry fn r (delay * 2) (attempt + 1)
        (rest.1, delay :: rest.2)
      else (.error e, [])

/-- Lexicographic comparison of character lists.  Spec-side helper: on
two ISO-8601 timestamps of the same format it is the chronological
order, so it expresses the claims' "lies after now". -/
def lexLtC : Str → Str → Bool
  | [], [] => false
  | [], _ :: _ => true
  | _ :: _, [] => false
  | a :: as, b :: bs => if a < b then true else if b < a then false else lexLtC as bs

/-- Timestamp `a` lies strictly after timestamp `b` (same-format ISO-8601). -/
def isoAfter (a b : Str) : Bool := lexLtC b a

/-!  ## Theorems

Base lemmas about the string model, then one theorem per claim (with its
witness or counterexample where required). -/

/-- Characterization of `List.isPrefixOf` by an explicit split. -/
theorem prefixOfE (n h : Str) : n.isPrefixOf h = true ↔ ∃ t, h = n ++ t := by
  induction n generalizing h with
  | nil => simp [List.isPrefixOf]
  | cons c n ih =>
    cases h with
    | nil => simp [List.isPrefixOf]
    | cons d t =>
      simp only [List.isPrefixOf, Bool.and_eq_true, beq_iff_eq, ih, List.cons_append,
        List.cons.injEq]
      constructor
      · rintro ⟨h1, t2, h2⟩
        exact ⟨t2, h1.symm, h2⟩
      · rintro ⟨t2, h1, h2⟩
        exact ⟨h1.symm, t2, h2⟩

/-- Characterization of the JavaScript `includes` model by an explicit
split of the haystack around the needle. -/
theorem containsL_iff (h n : Str) :
    containsL h n = true ↔ ∃ pre post, h = pre ++ n ++ post := by
  induction h with
  | nil =>
    simp only [containsL, List.isEmpty_iff]
    constructor
    · rintro rfl
      exact ⟨[], [], rfl⟩
    · rintro ⟨pre, post, hs⟩
      rcases List.append_eq_nil.mp hs.symm with ⟨h1, h2⟩
      rcases List.append_eq_nil.mp h1 with ⟨_, h3⟩
      exact h3
  | cons c t ih =>
    simp only [containsL, Bool.or_eq_true, prefixOfE, ih]
    constructor
    · rintro (⟨t2, h2⟩ | ⟨pre, post, hs⟩)
      · exact ⟨[], t2, by simpa using h2⟩
      · exact ⟨c :: pre, post, by simp [hs]⟩
    · rintro ⟨pre, post, hs⟩
      cases pre with
      | nil =>
        left
        exact ⟨post, by simpa using hs⟩
      | cons p pre =>
        right
        simp only [List.cons_append, List.cons.injEq] at hs
        exact ⟨pre, post, hs.2⟩

/-- A needle whose first character does not occur in `pre` can only be
found past `pre` in `pre ++ l`. -/
theorem containsL_append_of_headNotMem (pre l n₀ : Str) (c : Char) (hc : c ∉ pre)
    (h : containsL (pre ++ l) (c :: n₀) = true) : containsL l (c :: n₀) = true := by
  induction pre with
  | nil => simpa using h
  | cons p pre ih =>
    simp only [List.cons_append, containsL, Bool.or_eq_true] at h
    simp only [List.mem_cons, not_or] at hc
    rcases h with h | h
    · rw [prefixOfE] at h
      rcases h with ⟨t2, ht⟩
      simp only [List.cons_append, List.cons.injEq] at ht
      exact absurd ht.1.symm hc.1
    · exact ih hc.2 h

/-- The `| 0` wrap always lands in the signed 32-bit range. -/
theorem toInt32_bounds (n : Int) : -2 ^ 31 ≤ toInt32 n ∧ toInt32 n < 2 ^ 31 := by
  unfold toInt32
  have h1 : (0 : Int) ≤ (n + 2 ^ 31) % 2 ^ 32 := Int.emod_nonneg _ (by norm_num)
  have h2 : (n + 2 ^ 31) % 2 ^ 32 < 2 ^ 32 := Int.emod_lt_of_pos _ (by norm_num)
  omega

/-- The rolling hash stays in the signed 32-bit range. -/
theorem hashOf_bounds (units : List Nat) :
    -2 ^ 31 ≤ hashOf units ∧ hashOf units < 2 ^ 31 := by
  have key : ∀ (us : List Nat) (h : Int), -2 ^ 31 ≤ h → h < 2 ^ 31 →
      -2 ^ 31 ≤ us.foldl hashStep h ∧ us.foldl hashStep h < 2 ^ 31 := by
    intro us
    induction us with
    | nil => intro h h1 h2; exact ⟨h1, h2⟩
    | cons c rest ih =>
      intro h _ _
      simp only [List.foldl_cons]
      have hb := toInt32_bounds (toInt32 (h * 32) - h + c)
      exact ih _ (by simpa [hashStep] using hb.1) (by simpa [hashStep] using hb.2)
  exact key units 0 (by norm_num) (by norm_num)

/-- C5: deriveId (`generateIdFromUrl`) is pure and deterministic — for
every string, two evaluations yield the identical identifier — and every
identifier is the fixed namespace tag `vibe-` followed by the base-36
rendering of the absolute value of a 32-bit-wrapped hash. -/
theorem claim_C5_deriveId_deterministic (s : Str) :
    generateIdFromUrl s = generateIdFromUrl s ∧
    ∃ n : Nat, n ≤ 2 ^ 31 ∧ generateIdFromUrl s = "vibe-".data ++ natToBase36 n := by
  refine ⟨rfl, (hashOf (utf16Units s)).natAbs, ?_, rfl⟩
  have h := hashOf_bounds (utf16Units s)
  omega

/-- Unfolding lemma: a successful attempt returns immediately. -/
theorem withRetry_ok {T : Type} (fn : Nat → Except JsError T) (r d a : Nat) (v : T)
    (hf : fn a = Except.ok v) : withRetry fn r d a = (Except.ok v, []) := by
  unfold withRetry
  rw [hf]

/-- Unfolding lemma: a failed attempt with no budget left, or a
non-retryable error, settles with that error and no further sleep. -/
theorem withRetry_stop {T : Type} (fn : Nat → Except JsError T) (r d a : Nat) (e : JsError)
    (hf : fn a = Except.error e) (h : r = 0 ∨ isRetryable e = false) :
    withRetry fn r d a = (Except.error e, []) := by
  unfold withRetry
  rw [hf]
  rcases h with h | h
  · subst h
    rcases hr : isRetryable e <;> simp [hr]
  · cases r <;> simp [h]

/-- Unfolding lemma: a retryable failure with budget left sleeps `d` and
recurses with the budget reduced and the delay doubled. -/
theorem withRetry_retry {T : Type} (fn : Nat → Except JsError T) (r d a : Nat) (e : JsError)
    (hf : fn a = Except.error e) (hr : isRetryable e = true) :
    withRetry fn (r + 1) d a =
      ((withRetry fn r (d * 2) (a + 1)).1,
        d :: (withRetry fn r (d * 2) (a + 1)).2) := by
  conv_lhs => unfold withRetry
  rw [hf]
  simp [hr]

/-- The number of re-attempts (delays slept) never exceeds the retry budget. -/
theorem withRetry_trace_length {T : Type} (fn : Nat → Except JsError T) :
    ∀ retries delay attempt, (withRetry fn retries delay attempt).2.length ≤ retries := by
  intro retries
  induction retries with
  | zero =>
    intro delay attempt
    cases hf : fn attempt with
    | ok v => simp [withRetry_ok fn 0 delay attempt v hf]
    | error e => simp [withRetry_stop fn 0 delay attempt e hf (Or.inl rfl)]
  | succ n ih =>
    intro delay attempt
    cases hf : fn attempt with
    | ok v => simp [withRetry_ok fn (n + 1) delay attempt v hf]
    | error e =>
      by_cases hr : isRetryable e = true
      · rw [withRetry_retry fn n delay attempt e hf hr]
        simpa using ih (delay * 2) (attempt + 1)
      · simp [withRetry_stop fn (n + 1) delay attempt e hf (Or.inr (by simpa using hr))]

/-- The delays slept form the doubling sequence `delay * 2 ^ i`. -/
theorem withRetry_trace_doubling {T : Type} (fn : Nat → Except JsError T) :
    ∀ retries delay attempt,
      (withRetry fn retries delay attempt).2 =
        (List.range (withRetry fn retries delay attempt).2.length).map
          fun i => delay * 2 ^ i := by
  intro retries
  induction retries with
  | zero =>
    intro delay attempt
    cases hf : fn attempt with
    | ok v => simp [withRetry_ok fn 0 delay attempt v hf]
    | error e => simp [withRetry_stop fn 0 delay attempt e hf (Or.inl rfl)]
  | succ n ih =>
    intro delay attempt
    cases hf : fn attempt with
    | ok v => simp [withRetry_ok fn (n + 1) delay attempt v hf]
    | error e =>
      by_cases hr : isRetryable e = true
      · rw [withRetry_retry fn n delay attempt e hf hr]
        simp only [Nat.add_sub_cancel, List.length_cons, List.range_succ_eq_map,
          List.map_cons, List.map_map]
        congr 1
        · simp
        · rw [ih (delay * 2) (attempt + 1)]
          simp only [List.length_map, List.length_range]
          apply List.map_congr_left
          intro i _
          simp only [Function.comp_apply, pow_succ]
          ring
      · simp [withRetry_stop fn (n + 1) delay attempt e hf (Or.inr (by simpa using hr))]

/-- A propagated error is exactly what the final attempt of `fn` threw. -/
theorem withRetry_error_last {T : Type} (fn : Nat → Except JsError T) :
    ∀ retries delay attempt (e : JsError),
      (withRetry fn retries delay attempt).1 = Except.error e →
      fn (attempt + (withRetry fn retries delay attempt).2.length) = Except.error e := by
  intro retries
  induction retries with
  | zero =>
    intro delay attempt e h
    cases hf : fn attempt with
    | ok v => rw [withRetry_ok fn 0 delay attempt v hf] at h; simp at h
    | error f =>
      rw [withRetry_stop fn 0 delay attempt f hf (Or.inl rfl)] at h ⊢
      simpa [hf] using h
  | succ n ih =>
    intro delay attempt e h
    cases hf : fn attempt with
    | ok v => rw [withRetry_ok fn (n + 1) delay attempt v hf] at h; simp at h
    | error f =>
      by_cases hr : isRetryable f = true
      · rw [withRetry_retry fn n delay attempt f hf hr] at h ⊢
        simp only [Nat.add_sub_cancel, List.length_cons] at h ⊢
        have harg : attempt + ((withRetry fn n (delay * 2) (attempt + 1)).2.length + 1) =
            (attempt + 1) + (withRetry fn n (delay * 2) (attempt + 1)).2.length := by omega
        rw [harg]
        exact ih (delay * 2) (attempt + 1) e (by simpa using h)
      · rw [withRetry_stop fn (n + 1) delay attempt f hf (Or.inr (by simpa using hr))] at h ⊢
        simpa [hf] using h

/-- C6: `withRetry` classifies an error as retryable exactly when its
status is 429 or 503 or its message contains `overloaded`; it re-attempts
at most `retries` times, the delays slept double each attempt, and a
propagated error is the error the last attempt of `fn` threw, unchanged. -/
theorem claim_C6_withRetry_contract {T : Type} (fn : Nat → Except JsError T)
    (retries delay attempt : Nat) :
    (∀ e : JsError, isRetryable e = true ↔
        (e.status = some 429 ∨ e.status = some 503 ∨
          ∃ pre post, e.message = pre ++ "overloaded".data ++ post)) ∧
    (withRetry fn retries delay attempt).2.length ≤ retries ∧
    (withRetry fn retries delay attempt).2 =
      (List.range (withRetry fn retries delay attempt).2.length).map
        (fun i => delay * 2 ^ i) ∧
    ∀ e : JsError, (withRetry fn retries delay attempt).1 = Except.error e →
      fn (attempt + (withRetry fn retries delay attempt).2.length) = Except.error e := by
  refine ⟨?_, withRetry_trace_length fn retries delay attempt,
    withRetry_trace_doubling fn retries delay attempt,
    withRetry_error_last fn retries delay attempt⟩
  intro e
  simp only [isRetryable, Bool.or_eq_true, decide_eq_true_eq, containsL_iff]
  tauto

/-- Witness for C6 at a concrete always-429 upstream with budget 2. -/
theorem claim_C6_witness :
    (withRetry (fun _ => (Except.error ⟨some 429, "x".data⟩ : Except JsError Nat))
      2 3 0).2.length ≤ 2 :=
  (claim_C6_withRetry_contract
    (fun _ => (Except.error ⟨some 429, "x".data⟩ : Except JsError Nat)) 2 3 0).2.1

/-- C7: a line without the `[ITEM]` marker, or with fewer than five
`>>>`-separated fields after it, contributes zero records to the parser
output, which is exactly the concatenation of the per-line yields.  The
parser never raises: `parseLineV1` and `rawItemsV1` are total functions. -/
theorem claim_C7_parser_skips_malformed (now text line : Str)
    (h : containsL line ("[ITEM]".data) = false ∨ (lineFields line).length < 5) :
    parseLineV1 now line = [] ∧
    rawItemsV1 now text = (splitOnL ['\n'] text).flatMap (parseLineV1 now) := by
  refine ⟨?_, rfl⟩
  rcases h with h | h
  · simp [parseLineV1, h]
  · by_cases hm : containsL line ("[ITEM]".data) = true
    · simp only [parseLineV1, hm, if_true]
      rw [if_neg (by omega)]
    · simp [parseLineV1, hm]

/-- Witness for C7: a marker-free line yields nothing. -/
theorem claim_C7_witness :
    parseLineV1 ("NOW".data) ("no marker in this line".data) = [] ∧
    rawItemsV1 ("NOW".data) ("plain".data) =
      (splitOnL ['\n'] ("plain".data)).flatMap (parseLineV1 ("NOW".data)) :=
  claim_C7_parser_skips_malformed ("NOW".data) ("plain".data)
    ("no marker in this line".data) (Or.inl (by decide))

/-- The `publishedAt` stored by one V1 parse step is the eighth trimmed
field when non-empty, else `now`. -/
theorem parseLineV1_publishedAt (now line : Str) (item : NewsItem)
    (h : item ∈ parseLineV1 now line) :
    item.publishedAt = jsOr (((lineFields line).get? 7).getD []) now := by
  simp only [parseLineV1] at h
  split at h
  · split at h
    · split at h
      · rw [List.mem_singleton] at h
        subst h
        rfl
      · simp at h
    · simp at h
  · simp at h

/-- C8 (amended): the parser performs no date validation — every parsed
record's `publishedAt` is its line's eighth trimmed field verbatim
whenever that field is present and non-empty, and collapses to the
current time `now` only when the field is absent or empty. -/
theorem claim_C8_amended_publishedAt (now text : Str) (item : NewsItem)
    (h : item ∈ rawItemsV1 now text) :
    ∃ line ∈ splitOnL ['\n'] text,
      item ∈ parseLineV1 now line ∧
      item.publishedAt = jsOr (((lineFields line).get? 7).getD []) now := by
  unfold rawItemsV1 at h
  rw [List.mem_flatMap] at h
  obtain ⟨line, hline, hm⟩ := h
  exact ⟨line, hline, hm, parseLineV1_publishedAt now line item hm⟩

/-- Witness for C8 at a concrete feed carrying an explicit date field. -/
theorem claim_C8_witness :
    ∃ line ∈ splitOnL ['\n']
        ("[ITEM] T >>> s >>> src >>> X >>> https://a.bc/defgh >>> c >>> t >>> 2031-05-05".data),
      ((rawItemsV1 ("2024-01-01T00:00:00Z".data)
          ("[ITEM] T >>> s >>> src >>> X >>> https://a.bc/defgh >>> c >>> t >>> 2031-05-05".data)).get
        ⟨0, by decide⟩) ∈ parseLineV1 ("2024-01-01T00:00:00Z".data) line ∧
      ((rawItemsV1 ("2024-01-01T00:00:00Z".data)
          ("[ITEM] T >>> s >>> src >>> X >>> https://a.bc/defgh >>> c >>> t >>> 2031-05-05".data)).get
        ⟨0, by decide⟩).publishedAt =
        jsOr (((lineFields line).get? 7).getD []) ("2024-01-01T00:00:00Z".data) :=
  claim_C8_amended_publishedAt ("2024-01-01T00:00:00Z".data)
    ("[ITEM] T >>> s >>> src >>> X >>> https://a.bc/defgh >>> c >>> t >>> 2031-05-05".data)
    _ (List.get_mem _ _ _)

/-- Counterexample to C8 as stated: a future-dated field is kept verbatim,
so the resulting `publishedAt` lies strictly after the sanitization-time
`now`; it does not collapse to `now`. -/
theorem claim_C8_counterexample :
    (rawItemsV1 ("2024-01-01T00:00:00Z".data)
        ("[ITEM] T >>> s >>> src >>> X >>> https://a.bc/defgh >>> c >>> t >>> 2999-12-31T00:00:00Z".data)).map
      (fun it => it.publishedAt) = ["2999-12-31T00:00:00Z".data] ∧
    isoAfter ("2999-12-31T00:00:00Z".data) ("2024-01-01T00:00:00Z".data) = true := by
  exact ⟨by decide, by decide⟩

/-- One verification step only ever rewrites `url`, `id` and `source`. -/
theorem verifyOne_frame (c0 : Citation) (cites : List Citation) (item : NewsItem) :
    (verifyOne c0 cites item).title = item.title ∧
    (verifyOne c0 cites item).snippet = item.snippet ∧
    (verifyOne c0 cites item).platform = item.platform ∧
    (verifyOne c0 cites item).category = item.category ∧
    (verifyOne c0 cites item).tool = item.tool ∧
    (verifyOne c0 cites item).publishedAt = item.publishedAt := by
  simp only [verifyOne]
  split
  · exact ⟨rfl, rfl, rfl, rfl, rfl, rfl⟩
  · split
    · exact ⟨rfl, rfl, rfl, rfl, rfl, rfl⟩
    · exact ⟨rfl, rfl, rfl, rfl, rfl, rfl⟩

/-- C10: `verifyLinks` is length- and frame-preserving — the output has
the same length as the input, and at every position `title`, `snippet`,
`platform`, `category`, `tool` and `publishedAt` are unchanged; only
`url`, `id` and `source` can differ. -/
theorem claim_C10_verifyLinks_frame (items : List NewsItem) (chunks : List Chunk) :
    (verifyLinks items chunks).length = items.length ∧
    ∀ (i : Nat) (hi : i < items.length) (ho : i < (verifyLinks items chunks).length),
      ((verifyLinks items chunks).get ⟨i, ho⟩).title = (items.get ⟨i, hi⟩).title ∧
      ((verifyLinks items chunks).get ⟨i, ho⟩).snippet = (items.get ⟨i, hi⟩).snippet ∧
      ((verifyLinks items chunks).get ⟨i, ho⟩).platform = (items.get ⟨i, hi⟩).platform ∧
      ((verifyLinks items chunks).get ⟨i, ho⟩).category = (items.get ⟨i, hi⟩).category ∧
      ((verifyLinks items chunks).get ⟨i, ho⟩).tool = (items.get ⟨i, hi⟩).tool ∧
      ((verifyLinks items chunks).get ⟨i, ho⟩).publishedAt = (items.get ⟨i, hi⟩).publishedAt := by
  cases hce : extractCitations chunks with
  | nil =>
    have hv : verifyLinks items chunks = items := by simp [verifyLinks, hce]
    rw [hv]
    exact ⟨rfl, fun i hi ho => ⟨rfl, rfl, rfl, rfl, rfl, rfl⟩⟩
  | cons c0 rest =>
    have hv : verifyLinks items chunks = items.map (verifyOne c0 (c0 :: rest)) := by
      simp [verifyLinks, hce]
    rw [hv]
    refine ⟨List.length_map _ _, fun i hi ho => ?_⟩
    have hg : (items.map (verifyOne c0 (c0 :: rest))).get ⟨i, ho⟩ =
        verifyOne c0 (c0 :: rest) (items.get ⟨i, hi⟩) := by
      simp [List.get_eq_getElem, List.getElem_map]
    rw [hg]
    exact verifyOne_frame c0 (c0 :: rest) (items.get ⟨i, hi⟩)

/-- Witness for C10 on a one-item feed against one citation. -/
theorem claim_C10_witness :
    (verifyLinks
        [⟨"vibe-1".data, "T".data, "s".data, "src".data, "X".data,
          "https://a.b/c".data, "news".data, "Cursor".data, "2024".data, false⟩]
        [⟨some ⟨some ("https://a.b/c".data), some ("T".data)⟩⟩]).length =
      ([⟨"vibe-1".data, "T".data, "s".data, "src".data, "X".data,
          "https://a.b/c".data, "news".data, "Cursor".data, "2024".data, false⟩] :
        List NewsItem).length :=
  (claim_C10_verifyLinks_frame
    [⟨"vibe-1".data, "T".data, "s".data, "src".data, "X".data,
      "https://a.b/c".data, "news".data, "Cursor".data, "2024".data, false⟩]
    [⟨some ⟨some ("https://a.b/c".data), some ("T".data)⟩⟩]).1

/-- Every verified citation carries a non-empty `uri` (the source filter
keeps only truthy `c.web.uri`). -/
theorem extractCitations_uri_ne_nil (chunks : List Chunk) :
    ∀ c ∈ extractCitations chunks, c.uri ≠ [] := by
  intro c hc
  unfold extractCitations at hc
  rw [List.mem_filterMap] at hc
  obtain ⟨ch, _, hch⟩ := hc
  rcases ch with ⟨w⟩
  cases w with
  | none => simp at hch
  | some w =>
    cases hw : w.uri with
    | none => simp [hw] at hch
    | some u =>
      simp only [hw] at hch
      by_cases hu : u = []
      · simp [hu] at hch
      · rw [if_neg hu] at hch
        have hcu := Option.some.inj hch
        subst hcu
        exact hu

/-- Records produced by the V2 parser: the stored `url` is a sanitizer
output, and whenever it is non-empty the stored `id` was derived from it. -/
theorem parseLineV2_props (now line : Str) (item : NewsItem) (h : item ∈ parseLineV2 now line) :
    (∃ raw, item.url = sanitizeUrl raw) ∧
    (item.url ≠ [] → item.id = generateIdFromUrl item.url) := by
  simp only [parseLineV2] at h
  split at h
  · split at h
    · split at h
      · rw [List.mem_singleton] at h
        subst h
        refine ⟨⟨_, rfl⟩, fun hne => ?_⟩
        simp only [jsOr, if_neg hne]
      · simp at h
    · simp at h
  · simp at h

/-- Lift of `parseLineV2_props` to the whole parsed batch. -/
theorem rawItemsV2_props (now text : Str) (item : NewsItem) (h : item ∈ rawItemsV2 now text) :
    (∃ raw, item.url = sanitizeUrl raw) ∧
    (item.url ≠ [] → item.id = generateIdFromUrl item.url) := by
  unfold rawItemsV2 at h
  rw [List.mem_flatMap] at h
  obtain ⟨line, _, hm⟩ := h
  exact parseLineV2_props now line item hm

/-- C3: a record whose sanitized URL exactly equals some verified
citation's `uri` passes through `verifyLinks` unchanged, and its `id`
equals `deriveId` (`generateIdFromUrl`) of that url. -/
theorem claim_C3_exact_match (now text : Str) (chunks : List Chunk) (i : Nat)
    (hi : i < (rawItemsV2 now text).length)
    (hmatch : ∃ c ∈ extractCitations chunks,
        c.uri = ((rawItemsV2 now text).get ⟨i, hi⟩).url) :
    ∃ hlen : i < (parseGroundedNewsV2 now text chunks).length,
      (parseGroundedNewsV2 now text chunks).get ⟨i, hlen⟩ =
        (rawItemsV2 now text).get ⟨i, hi⟩ ∧
      ((rawItemsV2 now text).get ⟨i, hi⟩).id =
        generateIdFromUrl (((rawItemsV2 now text).get ⟨i, hi⟩).url) := by
  obtain ⟨c, hcmem, hcuri⟩ := hmatch
  have hune : ((rawItemsV2 now text).get ⟨i, hi⟩).url ≠ [] :=
    hcuri ▸ extractCitations_uri_ne_nil chunks c hcmem
  have hid := (rawItemsV2_props now text _ (List.get_mem _ _ _)).2 hune
  cases hce : extractCitations chunks with
  | nil => rw [hce] at hcmem; simp at hcmem
  | cons c0 rest =>
    have hv : parseGroundedNewsV2 now text chunks =
        (rawItemsV2 now text).map (verifyOne c0 (c0 :: rest)) := by
      simp [parseGroundedNewsV2, verifyLinks, hce]
    have hlen : i < (parseGroundedNewsV2 now text chunks).length := by
      rw [hv, List.length_map]; exact hi
    refine ⟨hlen, ?_, hid⟩
    have hg : (parseGroundedNewsV2 now text chunks).get ⟨i, hlen⟩ =
        verifyOne c0 (c0 :: rest) ((rawItemsV2 now text).get ⟨i, hi⟩) := by
      rw [List.get_of_eq hv]
      simp [List.get_eq_getElem, List.getElem_map]
    rw [hg]
    have hany : ((c0 :: rest).any
        fun c => c.uri = ((rawItemsV2 now text).get ⟨i, hi⟩).url) = true := by
      rw [List.any_eq_true]
      refine ⟨c, hce ▸ hcmem, by simp [hcuri]⟩
    simp only [verifyOne]
    rw [if_pos hany]

/-- Witness for C3: the end-to-end scenario of the spec with the model
copying the citation URL verbatim. -/
theorem claim_C3_witness :
    ∃ hlen : 0 < (parseGroundedNewsV2 ("2025-06-01".data)
        ("[ITEM] Cursor ships agent mode >>> New autonomous refactor tool >>> DevBlog >>> X >>> https://dev.site/cursor-agent-mode >>> official >>> Cursor >>> 2025-01-01".data)
        [⟨some ⟨some ("https://dev.site/cursor-agent-mode".data),
          some ("Cursor Ships Agent Mode For Refactoring".data)⟩⟩]).length,
      (parseGroundedNewsV2 ("2025-06-01".data)
        ("[ITEM] Cursor ships agent mode >>> New autonomous refactor tool >>> DevBlog >>> X >>> https://dev.site/cursor-agent-mode >>> official >>> Cursor >>> 2025-01-01".data)
        [⟨some ⟨some ("https://dev.site/cursor-agent-mode".data),
          some ("Cursor Ships Agent Mode For Refactoring".data)⟩⟩]).get ⟨0, hlen⟩ =
        (rawItemsV2 ("2025-06-01".data)
          ("[ITEM] Cursor ships agent mode >>> New autonomous refactor tool >>> DevBlog >>> X >>> https://dev.site/cursor-agent-mode >>> official >>> Cursor >>> 2025-01-01".data)).get
          ⟨0, by decide⟩ ∧
      ((rawItemsV2 ("2025-06-01".data)
          ("[ITEM] Cursor ships agent mode >>> New autonomous refactor tool >>> DevBlog >>> X >>> https://dev.site/cursor-agent-mode >>> official >>> Cursor >>> 2025-01-01".data)).get
          ⟨0, by decide⟩).id =
        generateIdFromUrl
          (((rawItemsV2 ("2025-06-01".data)
            ("[ITEM] Cursor ships agent mode >>> New autonomous refactor tool >>> DevBlog >>> X >>> https://dev.site/cursor-agent-mode >>> official >>> Cursor >>> 2025-01-01".data)).get
            ⟨0, by decide⟩).url) :=
  claim_C3_exact_match ("2025-06-01".data)
    ("[ITEM] Cursor ships agent mode >>> New autonomous refactor tool >>> DevBlog >>> X >>> https://dev.site/cursor-agent-mode >>> official >>> Cursor >>> 2025-01-01".data)
    [⟨some ⟨some ("https://dev.site/cursor-agent-mode".data),
      some ("Cursor Ships Agent Mode For Refactoring".data)⟩⟩]
    0 (by decide)
    ⟨⟨"https://dev.site/cursor-agent-mode".data,
      lowerL ("Cursor Ships Agent Mode For Refactoring".data)⟩, by decide, by decide⟩

/-- Soundness of the fuzzy-match loop: either no citation strictly beats
the running maximum and the accumulator survives, or the loop returns the
first citation achieving the strictly improved maximal overlap. -/
theorem foldBest_spec (tl : Str) (cites : List Citation) :
    ∀ (b : Citation) (m : Nat),
      (List.foldl (bestStep tl) (b, m) cites = (b, m) ∧
        ∀ c ∈ cites, overlapCount tl c ≤ m) ∨
      (∃ best M l₁ l₂, List.foldl (bestStep tl) (b, m) cites = (best, M) ∧
        cites = l₁ ++ best :: l₂ ∧ M = overlapCount tl best ∧ m < M ∧
        (∀ c ∈ l₁, overlapCount tl c < M) ∧
        (∀ c ∈ l₂, overlapCount tl c ≤ M)) := by
  induction cites with
  | nil =>
    intro b m
    left
    exact ⟨rfl, by simp⟩
  | cons c rest ih =>
    intro b m
    rw [List.foldl_cons]
    by_cases hlt : m < overlapCount tl c
    · have hstep : bestStep tl (b, m) c = (c, overlapCount tl c) := by
        simp [bestStep, hlt]
      rw [hstep]
      rcases ih c (overlapCount tl c) with ⟨heq, hall⟩ |
        ⟨best, M, l₁, l₂, heq, hdec, hM, hlt2, hpri, hpost⟩
      · right
        exact ⟨c, overlapCount tl c, [], rest, heq, rfl, rfl, hlt, by simp, hall⟩
      · right
        refine ⟨best, M, c :: l₁, l₂, heq, by rw [hdec, List.cons_append], hM, lt_trans hlt hlt2, ?_, hpost⟩
        intro x hx
        rcases List.mem_cons.mp hx with rfl | hx
        · exact hlt2
        · exact hpri x hx
    · have hstep : bestStep tl (b, m) c = (b, m) := by
        simp [bestStep, hlt]
      rw [hstep]
      rcases ih b m with ⟨heq, hall⟩ |
        ⟨best, M, l₁, l₂, heq, hdec, hM, hlt2, hpri, hpost⟩
      · left
        refine ⟨heq, fun x hx => ?_⟩
        rcases List.mem_cons.mp hx with rfl | hx
        · omega
        · exact hall x hx
      · right
        refine ⟨best, M, c :: l₁, l₂, heq, by rw [hdec, List.cons_append], hM, hlt2, ?_, hpost⟩
        intro x hx
        rcases List.mem_cons.mp hx with rfl | hx
        · omega
        · exact hpri x hx

/-- The winner of the fuzzy-match loop is the seed or one of the citations. -/
theorem foldBest_mem (tl : Str) (cites : List Citation) :
    ∀ (b : Citation) (m : Nat),
      (List.foldl (bestStep tl) (b, m) cites).1 = b ∨
      (List.foldl (bestStep tl) (b, m) cites).1 ∈ cites := by
  induction cites with
  | nil =>
    intro b m
    left
    rfl
  | cons c rest ih =>
    intro b m
    rw [List.foldl_cons]
    by_cases hlt : m < overlapCount tl c
    · have hstep : bestStep tl (b, m) c = (c, overlapCount tl c) := by
        simp [bestStep, hlt]
      rw [hstep]
      rcases ih c (overlapCount tl c) with h | h
      · right
        rw [h]
        exact List.mem_cons_self c rest
      · right
        exact List.mem_cons_of_mem c h
    · have hstep : bestStep tl (b, m) c = (b, m) := by
        simp [bestStep, hlt]
      rw [hstep]
      rcases ih b m with h | h
      · left
        exact h
      · right
        exact List.mem_cons_of_mem c h

/-- Specification of `bestCitation` when some citation overlaps: the
result is the first citation of maximal (positive) overlap. -/
theorem bestCitation_spec (tl : Str) (c0 : Citation) (cites : List Citation)
    (h : ∃ c ∈ cites, 0 < overlapCount tl c) :
    ∃ best M, bestCitation tl c0 cites = (best, M) ∧ best ∈ cites ∧
      M = overlapCount tl best ∧ 0 < M ∧
      (∀ c ∈ cites, overlapCount tl c ≤ M) ∧
      ∃ l₁ l₂, cites = l₁ ++ best :: l₂ ∧ ∀ c ∈ l₁, overlapCount tl c < M := by
  unfold bestCitation
  rcases foldBest_spec tl cites c0 0 with ⟨heq, hall⟩ |
    ⟨best, M, l₁, l₂, heq, hdec, hM, hpos, hpri, hpost⟩
  · obtain ⟨c, hc, hcpos⟩ := h
    exact absurd (hall c hc) (by omega)
  · refine ⟨best, M, heq, ?_, hM, hpos, ?_, l₁, l₂, hdec, hpri⟩
    · rw [hdec]
      exact List.mem_append_right _ (List.mem_cons_self _ _)
    · intro c hc
      rw [hdec] at hc
      rcases List.mem_append.mp hc with hc | hc
      · exact le_of_lt (hpri c hc)
      · rcases List.mem_cons.mp hc with rfl | hc
        · exact le_of_eq hM.symm
        · exact hpost c hc

/-- C2 (amended): when the sanitized URL matches no citation exactly, and
some citation title shares a long word with the record title, the output
record carries the uri of the best-overlapping citation (first occurrence
winning ties) and an id recomputed from that uri. -/
theorem claim_C2_amended_substitution (chunks : List Chunk) (items : List NewsItem) (i : Nat)
    (hi : i < items.length)
    (hnm : ∀ c ∈ extractCitations chunks, c.uri ≠ (items.get ⟨i, hi⟩).url)
    (hsh : ∃ c ∈ extractCitations chunks, ∃ w ∈ longWords c.title,
        containsL (lowerL (items.get ⟨i, hi⟩).title) w = true) :
    ∃ (hlen : i < (verifyLinks items chunks).length) (best : Citation) (M : Nat),
      best ∈ extractCitations chunks ∧
      M = overlapCount (lowerL (items.get ⟨i, hi⟩).title) best ∧ 0 < M ∧
      (∀ c ∈ extractCitations chunks,
        overlapCount (lowerL (items.get ⟨i, hi⟩).title) c ≤ M) ∧
      (∃ l₁ l₂, extractCitations chunks = l₁ ++ best :: l₂ ∧
        ∀ c ∈ l₁, overlapCount (lowerL (items.get ⟨i, hi⟩).title) c < M) ∧
      ((verifyLinks items chunks).get ⟨i, hlen⟩).url = best.uri ∧
      ((verifyLinks items chunks).get ⟨i, hlen⟩).id = generateIdFromUrl best.uri := by
  have hover : ∃ c ∈ extractCitations chunks,
      0 < overlapCount (lowerL (items.get ⟨i, hi⟩).title) c := by
    obtain ⟨c, hc, w, hw, hcont⟩ := hsh
    exact ⟨c, hc, List.countP_pos_iff.mpr ⟨w, hw, hcont⟩⟩
  cases hce : extractCitations chunks with
  | nil =>
    rw [hce] at hover
    simp at hover
  | cons c0 rest =>
    rw [hce] at hover hnm
    have hv : verifyLinks items chunks = items.map (verifyOne c0 (c0 :: rest)) := by
      simp [verifyLinks, hce]
    obtain ⟨best, M, hbc, hmem, hM, hpos, hub, l₁, l₂, hdec, hpri⟩ :=
      bestCitation_spec (lowerL (items.get ⟨i, hi⟩).title) c0 (c0 :: rest) hover
    have hlen : i < (verifyLinks items chunks).length := by
      rw [hv, List.length_map]
      exact hi
    have hg : (verifyLinks items chunks).get ⟨i, hlen⟩ =
        verifyOne c0 (c0 :: rest) (items.get ⟨i, hi⟩) := by
      rw [List.get_of_eq hv]
      simp [List.get_eq_getElem, List.getElem_map]
    have hanyf : ((c0 :: rest).any fun c => c.uri = (items.get ⟨i, hi⟩).url) = false := by
      rw [List.any_eq_false]
      intro c hc
      simpa using hnm c hc
    have hvo : verifyOne c0 (c0 :: rest) (items.get ⟨i, hi⟩) =
        { items.get ⟨i, hi⟩ with
          url := best.uri
          id := generateIdFromUrl best.uri
          source :=
            if 30 < best.title.length then best.title.take 30 ++ "...".data
            else jsOr best.title (items.get ⟨i, hi⟩).source } := by
      simp only [verifyOne]
      rw [if_neg (by rw [hanyf]; exact Bool.false_ne_true), hbc, if_pos (Or.inl hpos)]
    refine ⟨hlen, best, M, hmem, hM, hpos, hub, ⟨l₁, l₂, hdec, hpri⟩, ?_, ?_⟩
    · rw [hg, hvo]
    · rw [hg, hvo]

/-- Witness for C2: a 14-character (suspect) URL matching no citation,
against one citation sharing the words of the title. -/
theorem claim_C2_witness :
    ∃ (hlen : 0 <
        (verifyLinks
          [⟨"vibe-x".data, "Cursor ships agent mode".data, "s".data, "src".data, "X".data,
            "https://x.zz/a".data, "news".data, "Cursor".data, "2024".data, false⟩]
          [⟨some ⟨some ("https://real.site/cursor-agent".data),
            some ("Cursor Ships Agent Mode".data)⟩⟩]).length)
      (best : Citation) (M : Nat),
      best ∈ extractCitations
        [⟨some ⟨some ("https://real.site/cursor-agent".data),
          some ("Cursor Ships Agent Mode".data)⟩⟩] ∧
      M = overlapCount (lowerL
        (([⟨"vibe-x".data, "Cursor ships agent mode".data, "s".data, "src".data, "X".data,
            "https://x.zz/a".data, "news".data, "Cursor".data, "2024".data, false⟩] :
          List NewsItem).get ⟨0, by decide⟩).title) best ∧ 0 < M ∧
      (∀ c ∈ extractCitations
          [⟨some ⟨some ("https://real.site/cursor-agent".data),
            some ("Cursor Ships Agent Mode".data)⟩⟩],
        overlapCount (lowerL
          (([⟨"vibe-x".data, "Cursor ships agent mode".data, "s".data, "src".data, "X".data,
              "https://x.zz/a".data, "news".data, "Cursor".data, "2024".data, false⟩] :
            List NewsItem).get ⟨0, by decide⟩).title) c ≤ M) ∧
      (∃ l₁ l₂, extractCitations
          [⟨some ⟨some ("https://real.site/cursor-agent".data),
            some ("Cursor Ships Agent Mode".data)⟩⟩] = l₁ ++ best :: l₂ ∧
        ∀ c ∈ l₁, overlapCount (lowerL
          (([⟨"vibe-x".data, "Cursor ships agent mode".data, "s".data, "src".data, "X".data,
              "https://x.zz/a".data, "news".data, "Cursor".data, "2024".data, false⟩] :
            List NewsItem).get ⟨0, by decide⟩).title) c < M) ∧
      ((verifyLinks
          [⟨"vibe-x".data, "Cursor ships agent mode".data, "s".data, "src".data, "X".data,
            "https://x.zz/a".data, "news".data, "Cursor".data, "2024".data, false⟩]
          [⟨some ⟨some ("https://real.site/cursor-agent".data),
            some ("Cursor Ships Agent Mode".data)⟩⟩]).get ⟨0, hlen⟩).url = best.uri ∧
      ((verifyLinks
          [⟨"vibe-x".data, "Cursor ships agent mode".data, "s".data, "src".data, "X".data,
            "https://x.zz/a".data, "news".data, "Cursor".data, "2024".data, false⟩]
          [⟨some ⟨some ("https://real.site/cursor-agent".data),
            some ("Cursor Ships Agent Mode".data)⟩⟩]).get ⟨0, hlen⟩).id =
        generateIdFromUrl best.uri :=
  claim_C2_amended_substitution
    [⟨some ⟨some ("https://real.site/cursor-agent".data),
      some ("Cursor Ships Agent Mode".data)⟩⟩]
    [⟨"vibe-x".data, "Cursor ships agent mode".data, "s".data, "src".data, "X".data,
      "https://x.zz/a".data, "news".data, "Cursor".data, "2024".data, false⟩]
    0 (by decide) (by decide)
    ⟨⟨"https://real.site/cursor-agent".data, lowerL ("Cursor Ships Agent Mode".data)⟩,
      by decide, "cursor".data, by decide, by decide⟩

/-- Counterexample to C2 as stated: a record whose suspect URL exactly
equals a citation's uri passes through unchanged even though another
citation overlaps its title, so the output url is not the
best-overlapping citation's uri. -/
theorem claim_C2_counterexample :
    verifyLinks
        [⟨"vibe-x".data, "Great Tool Launch".data, "s".data, "src".data, "X".data,
          "https://a.b/c".data, "news".data, "Cursor".data, "2024".data, false⟩]
        [⟨some ⟨some ("https://a.b/c".data), none⟩⟩,
         ⟨some ⟨some ("https://real.site/great-tool-launch".data),
           some ("Great Tool Launch".data)⟩⟩] =
      [⟨"vibe-x".data, "Great Tool Launch".data, "s".data, "src".data, "X".data,
        "https://a.b/c".data, "news".data, "Cursor".data, "2024".data, false⟩] ∧
    ("https://a.b/c".data).length < 15 ∧
    0 < overlapCount (lowerL ("Great Tool Launch".data))
        ⟨"https://real.site/great-tool-launch".data, lowerL ("Great Tool Launch".data)⟩ ∧
    ¬ ("https://a.b/c".data = "https://real.site/great-tool-launch".data) :=
  ⟨by decide, by decide, by decide, by decide⟩

/-- Pushing `https://` in front of a scheme-free host cannot create an
occurrence of `example.com`. -/
theorem contains_prepend_ecom (l : Str)
    (h : containsL ("https://".data ++ l) ("example.com".data) = true) :
    containsL l ("example.com".data) = true :=
  containsL_append_of_headNotMem ("https://".data) l ("xample.com".data) 'e' (by decide) h

/-- Pushing `https://` in front cannot create `your-url-here`. -/
theorem contains_prepend_yuh (l : Str)
    (h : containsL ("https://".data ++ l) ("your-url-here".data) = true) :
    containsL l ("your-url-here".data) = true :=
  containsL_append_of_headNotMem ("https://".data) l ("our-url-here".data) 'y' (by decide) h

/-- Pushing `https://` in front cannot create an ellipsis marker. -/
theorem contains_prepend_dots (l : Str)
    (h : containsL ("https://".data ++ l) ("...".data) = true) :
    containsL l ("...".data) = true :=
  containsL_append_of_headNotMem ("https://".data) l ("..".data) '.' (by decide) h

/-- Invariant of the sanitizer tail: the output is empty, or free of the
placeholder domains, and an ellipsis survives only in a string of at
least 20 characters. -/
theorem sanitizeTail_inv (clean : Str) :
    sanitizeTail clean = [] ∨
    (containsL (sanitizeTail clean) ("example.com".data) = false ∧
     containsL (sanitizeTail clean) ("your-url-here".data) = false ∧
     (containsL (sanitizeTail clean) ("...".data) = true →
       20 ≤ (sanitizeTail clean).length)) := by
  unfold sanitizeTail
  split_ifs with h1 h2 h3
  · left
    rfl
  · left
    rfl
  · right
    rw [not_or] at h2
    refine ⟨?_, ?_, ?_⟩
    · cases hx : containsL ("https://".data ++ clean) ("example.com".data) with
      | false => rfl
      | true => exact absurd (contains_prepend_ecom clean hx) (by simpa using h2.1)
    · cases hx : containsL ("https://".data ++ clean) ("your-url-here".data) with
      | false => rfl
      | true => exact absurd (contains_prepend_yuh clean hx) (by simpa using h2.2)
    · intro hx
      have hcl : containsL clean ("...".data) = true := contains_prepend_dots clean hx
      have hlen : ¬ clean.length < 20 := fun hl => h1 ⟨hcl, hl⟩
      rw [List.length_append]
      omega
  · right
    rw [not_or] at h2
    refine ⟨?_, ?_, ?_⟩
    · cases hx : containsL clean ("example.com".data) with
      | false => rfl
      | true => exact absurd hx (by simpa using h2.1)
    · cases hx : containsL clean ("your-url-here".data) with
      | false => rfl
      | true => exact absurd hx (by simpa using h2.2)
    · intro hx
      have hlen : ¬ clean.length < 20 := fun hl => h1 ⟨hx, hl⟩
      omega

/-- The sanitizer invariant, at the `sanitizeUrl` entry point. -/
theorem sanitizeUrl_inv (raw : Str) :
    sanitizeUrl raw = [] ∨
    (containsL (sanitizeUrl raw) ("example.com".data) = false ∧
     containsL (sanitizeUrl raw) ("your-url-here".data) = false ∧
     (containsL (sanitizeUrl raw) ("...".data) = true → 20 ≤ (sanitizeUrl raw).length)) := by
  unfold sanitizeUrl
  split
  · left
    rfl
  · exact sanitizeTail_inv _

/-- One verification step keeps the record url or installs a citation uri. -/
theorem verifyOne_url (c0 : Citation) (cites : List Citation) (h0 : c0 ∈ cites)
    (item : NewsItem) :
    (verifyOne c0 cites item).url = item.url ∨
    ∃ c ∈ cites, (verifyOne c0 cites item).url = c.uri := by
  simp only [verifyOne]
  split
  · left
    rfl
  · split
    · right
      refine ⟨(bestCitation (lowerL item.title) c0 cites).1, ?_, rfl⟩
      unfold bestCitation
      rcases foldBest_mem (lowerL item.title) cites c0 0 with h | h
      · rw [h]
        exact h0
      · exact h
    · left
      rfl

/-- C1 (amended): every url produced by the pipeline (V2 parse followed
by `verifyLinks`) is the empty string, the uri of one of the verified
citations, or a sanitizer output, which never contains a placeholder
domain and retains an ellipsis marker only at length at least 20. -/
theorem claim_C1_amended_url_invariant (now text : Str) (chunks : List Chunk)
    (item : NewsItem) (h : item ∈ parseGroundedNewsV2 now text chunks) :
    item.url = [] ∨
    (∃ c ∈ extractCitations chunks, item.url = c.uri) ∨
    (containsL item.url ("example.com".data) = false ∧
     containsL item.url ("your-url-here".data) = false ∧
     (containsL item.url ("...".data) = true → 20 ≤ item.url.length)) := by
  have hsan : ∀ it : NewsItem, it ∈ rawItemsV2 now text →
      it.url = [] ∨
      (containsL it.url ("example.com".data) = false ∧
       containsL it.url ("your-url-here".data) = false ∧
       (containsL it.url ("...".data) = true → 20 ≤ it.url.length)) := by
    intro it hit
    obtain ⟨⟨raw, hraw⟩, _⟩ := rawItemsV2_props now text it hit
    rw [hraw]
    exact sanitizeUrl_inv raw
  unfold parseGroundedNewsV2 at h
  cases hce : extractCitations chunks with
  | nil =>
    have hv : verifyLinks (rawItemsV2 now text) chunks = rawItemsV2 now text := by
      simp [verifyLinks, hce]
    rw [hv] at h
    rcases hsan item h with h1 | h1
    · exact Or.inl h1
    · exact Or.inr (Or.inr h1)
  | cons c0 rest =>
    have hv : verifyLinks (rawItemsV2 now text) chunks =
        (rawItemsV2 now text).map (verifyOne c0 (c0 :: rest)) := by
      simp [verifyLinks, hce]
    rw [hv, List.mem_map] at h
    obtain ⟨it0, hit0, rfl⟩ := h
    rcases verifyOne_url c0 (c0 :: rest) (List.mem_cons_self _ _) it0 with hu | ⟨c, hc, hu⟩
    · rw [hu]
      rcases hsan it0 hit0 with h1 | h1
      · exact Or.inl h1
      · exact Or.inr (Or.inr h1)
    · exact Or.inr (Or.inl ⟨c, hce ▸ hc, hu⟩)

/-- Witness for C1 on a concrete pipeline run with no citations. -/
theorem claim_C1_witness :
    (⟨generateIdFromUrl ("https://good.site/page".data), "T".data, "s".data, "src".data,
        "X".data, "https://good.site/page".data, "cat".data, "tool".data, "2024".data,
        false⟩ : NewsItem).url = [] ∨
    (∃ c ∈ extractCitations ([] : List Chunk),
      (⟨generateIdFromUrl ("https://good.site/page".data), "T".data, "s".data, "src".data,
        "X".data, "https://good.site/page".data, "cat".data, "tool".data, "2024".data,
        false⟩ : NewsItem).url = c.uri) ∨
    (containsL ("https://good.site/page".data) ("example.com".data) = false ∧
     containsL ("https://good.site/page".data) ("your-url-here".data) = false ∧
     (containsL ("https://good.site/page".data) ("...".data) = true →
       20 ≤ ("https://good.site/page".data).length)) :=
  claim_C1_amended_url_invariant ("2024-01-01".data)
    ("[ITEM] T >>> s >>> src >>> X >>> https://good.site/page >>> cat >>> tool >>> 2024".data)
    []
    ⟨generateIdFromUrl ("https://good.site/page".data), "T".data, "s".data, "src".data,
      "X".data, "https://good.site/page".data, "cat".data, "tool".data, "2024".data, false⟩
    (by decide)

/-- Counterexample to C1 as stated: with an empty citation list the
pipeline emits a url that still contains the literal ellipsis marker
(the sanitizer only rejects ellipsis strings shorter than 20 characters). -/
theorem claim_C1_counterexample :
    (parseGroundedNewsV2 ("2024-01-01".data)
        ("[ITEM] T >>> s >>> src >>> X >>> https://x.co/a...bcdefgh >>> cat >>> tool >>> 2024".data)
        []).map (fun it => it.url) = ["https://x.co/a...bcdefgh".data] ∧
    containsL ("https://x.co/a...bcdefgh".data) ("...".data) = true :=
  ⟨by decide, by decide⟩

/-- Setting a fresh key appends the pair at the end of the map. -/
theorem mapSet_of_notMem (m : List (Str × NewsItem)) (k : Str) (v : NewsItem)
    (h : k ∉ mapKeys m) : mapSet m k v = m ++ [(k, v)] := by
  induction m with
  | nil => rfl
  | cons p rest ih =>
    obtain ⟨k₁, v₁⟩ := p
    simp only [mapKeys, List.map_cons, List.mem_cons, not_or] at h
    simp only [mapSet]
    rw [if_neg (fun he => h.1 he.symm), ih h.2]
    rfl

/-- Keys after a `set`: unchanged on an update, the new key appended on
an insertion. -/
theorem mapKeys_mapSet (m : List (Str × NewsItem)) (k : Str) (v : NewsItem) :
    mapKeys (mapSet m k v) =
      if k ∈ mapKeys m then mapKeys m else mapKeys m ++ [k] := by
  induction m with
  | nil =>
    rw [if_neg (show k ∉ mapKeys [] from List.not_mem_nil k)]
    rfl
  | cons p rest ih =>
    obtain ⟨k₁, v₁⟩ := p
    by_cases he : k₁ = k
    · subst he
      have hset : mapSet ((k₁, v₁) :: rest) k₁ v = (k₁, v) :: rest := by
        simp only [mapSet]
        split_ifs with hcond
        · rfl
        · simp at hcond
      rw [hset, if_pos (by
        simp only [mapKeys, List.map_cons]
        exact List.mem_cons_self _ _)]
      rfl
    · simp only [mapSet, if_neg he, mapKeys, List.map_cons] at ih ⊢
      rw [ih]
      by_cases hm : k ∈ List.map Prod.fst rest
      · rw [if_pos hm, if_pos (List.mem_cons_of_mem _ hm)]
      · rw [if_neg hm, if_neg (by
          intro hc
          rcases List.mem_cons.mp hc with hc | hc
          · exact he hc.symm
          · exact hm hc)]
        rfl

/-- A `set` keeps the keys duplicate-free. -/
theorem nodup_mapSet (m : List (Str × NewsItem)) (k : Str) (v : NewsItem)
    (h : (mapKeys m).Nodup) : (mapKeys (mapSet m k v)).Nodup := by
  rw [mapKeys_mapSet]
  split_ifs with hm
  · exact h
  · rw [List.nodup_append]
    exact ⟨h, List.nodup_singleton k, by
      intro a ha hb
      rw [List.mem_singleton] at hb
      subst hb
      exact hm ha⟩

/-- A `set` preserves the invariant that every stored value's `id` is its
key, provided the inserted value satisfies it. -/
theorem mapSet_snd_id (m : List (Str × NewsItem)) (k : Str) (v : NewsItem)
    (hm : ∀ p ∈ m, (Prod.snd p).id = p.1) (hv : v.id = k) :
    ∀ p ∈ mapSet m k v, (Prod.snd p).id = p.1 := by
  induction m with
  | nil =>
    intro p hp
    simp only [mapSet, List.mem_singleton] at hp
    subst hp
    exact hv
  | cons q rest ih =>
    obtain ⟨k₁, v₁⟩ := q
    intro p hp
    simp only [mapSet] at hp
    split_ifs at hp with he
    · rcases List.mem_cons.mp hp with rfl | hp
      · exact hv
      · exact hm p (List.mem_cons_of_mem _ hp)
    · rcases List.mem_cons.mp hp with rfl | hp
      · exact hm _ (List.mem_cons_self _ _)
      · exact ih (fun q hq => hm q (List.mem_cons_of_mem _ hq)) p hp

/-- Invariant of the history phase of the merge (`prev.forEach(... set)`). -/
theorem phase1_inv (L : List NewsItem) :
    ∀ m, (mapKeys m).Nodup → (∀ p ∈ m, (Prod.snd p).id = p.1) →
      (mapKeys (L.foldl (fun acc it => mapSet acc it.id { it with isNew := false }) m)).Nodup ∧
      ∀ p ∈ L.foldl (fun acc it => mapSet acc it.id { it with isNew := false }) m,
        (Prod.snd p).id = p.1 := by
  induction L with
  | nil =>
    intro m h1 h2
    exact ⟨h1, h2⟩
  | cons it L ih =>
    intro m h1 h2
    rw [List.foldl_cons]
    exact ih _ (nodup_mapSet _ _ _ h1) (mapSet_snd_id _ _ _ h2 rfl)

/-- Invariant of the incoming phase of the merge (guarded insertions). -/
theorem phase2_inv (A : List NewsItem) :
    ∀ m, (mapKeys m).Nodup → (∀ p ∈ m, (Prod.snd p).id = p.1) →
      (mapKeys (A.foldl (fun acc it =>
        if it.id ∈ mapKeys acc then acc else mapSet acc it.id { it with isNew := true }) m)).Nodup ∧
      ∀ p ∈ A.foldl (fun acc it =>
        if it.id ∈ mapKeys acc then acc else mapSet acc it.id { it with isNew := true }) m,
        (Prod.snd p).id = p.1 := by
  induction A with
  | nil =>
    intro m h1 h2
    exact ⟨h1, h2⟩
  | cons it A ih =>
    intro m h1 h2
    rw [List.foldl_cons]
    by_cases hm : it.id ∈ mapKeys m
    · rw [if_pos hm]
      exact ih m h1 h2
    · rw [if_neg hm]
      exact ih _ (nodup_mapSet _ _ _ h1) (mapSet_snd_id _ _ _ h2 rfl)

/-- Keys only grow across the incoming phase. -/
theorem subset_keys_phase2 (A : List NewsItem) :
    ∀ m, mapKeys m ⊆ mapKeys (A.foldl (fun acc it =>
      if it.id ∈ mapKeys acc then acc else mapSet acc it.id { it with isNew := true }) m) := by
  induction A with
  | nil =>
    intro m
    exact fun a ha => ha
  | cons it A ih =>
    intro m
    rw [List.foldl_cons]
    refine fun a ha => ih _ ?_
    by_cases hm : it.id ∈ mapKeys m
    · rw [if_pos hm]
      exact ha
    · rw [if_neg hm, mapKeys_mapSet, if_neg hm]
      exact List.mem_append_left _ ha

/-- After the incoming phase every incoming id is a key of the map. -/
theorem phase2_ids_mem (A : List NewsItem) :
    ∀ m, ∀ a ∈ A, a.id ∈ mapKeys (A.foldl (fun acc it =>
      if it.id ∈ mapKeys acc then acc else mapSet acc it.id { it with isNew := true }) m) := by
  induction A with
  | nil =>
    intro m a ha
    exact absurd ha (List.not_mem_nil a)
  | cons it A ih =>
    intro m a ha
    rw [List.foldl_cons]
    rcases List.mem_cons.mp ha with rfl | ha
    · apply subset_keys_phase2 A _
      by_cases hm : a.id ∈ mapKeys m
      · rw [if_pos hm]
        exact hm
      · rw [if_neg hm, mapKeys_mapSet, if_neg hm]
        exact List.mem_append_right _ (List.mem_singleton.mpr rfl)
    · exact ih _ a ha

/-- The history phase over a duplicate-free feed lays the feed out as an
association list in order. -/
theorem phase1_eq (L : List NewsItem) :
    ∀ m, (∀ it ∈ L, it.id ∉ mapKeys m) → (L.map (fun it => it.id)).Nodup →
      L.foldl (fun acc it => mapSet acc it.id { it with isNew := false }) m =
        m ++ L.map (fun it => (it.id, { it with isNew := false })) := by
  induction L with
  | nil =>
    intro m _ _
    simp
  | cons it L ih =>
    intro m hfresh hnd
    rw [List.foldl_cons, mapSet_of_notMem _ _ _ (hfresh it (List.mem_cons_self _ _))]
    rw [List.map_cons, List.nodup_cons] at hnd
    rw [ih _ ?_ hnd.2]
    · simp
    · intro it' hit'
      have hkeys : mapKeys (m ++ [(it.id, { it with isNew := false })]) =
          mapKeys m ++ [it.id] := by
        simp [mapKeys]
      rw [hkeys]
      intro hc
      rcases List.mem_append.mp hc with hc | hc
      · exact hfresh it' (List.mem_cons_of_mem _ hit') hc
      · rw [List.mem_singleton] at hc
        exact hnd.1 (hc ▸ List.mem_map_of_mem (fun it => it.id) hit')

/-- The incoming phase is a no-op when every incoming id is present. -/
theorem phase2_noop (A : List NewsItem) :
    ∀ m, (∀ a ∈ A, a.id ∈ mapKeys m) →
      A.foldl (fun acc it =>
        if it.id ∈ mapKeys acc then acc else mapSet acc it.id { it with isNew := true }) m = m := by
  induction A with
  | nil =>
    intro m _
    rfl
  | cons it A ih =>
    intro m h
    rw [List.foldl_cons, if_pos (h it (List.mem_cons_self _ _))]
    exact ih m fun a ha => h a (List.mem_cons_of_mem _ ha)

/-- Unfolding equation of `mergeNews` (the two `forEach` loops as folds). -/
theorem mergeNews_def (prev incoming : List NewsItem) :
    mergeNews prev incoming =
      (incoming.foldl (fun acc it =>
        if it.id ∈ mapKeys acc then acc else mapSet acc it.id { it with isNew := true })
        (prev.foldl (fun acc it => mapSet acc it.id { it with isNew := false }) [])).map
        Prod.snd := rfl

/-- The ids of the merged feed are the keys of the underlying map. -/
theorem mergeNews_ids_eq_keys (H A : List NewsItem) :
    (mergeNews H A).map (fun it => it.id) =
      mapKeys (A.foldl (fun acc it =>
        if it.id ∈ mapKeys acc then acc else mapSet acc it.id { it with isNew := true })
        (H.foldl (fun acc it => mapSet acc it.id { it with isNew := false }) [])) := by
  obtain ⟨hnd1, hid1⟩ := phase1_inv H [] List.nodup_nil (by simp)
  obtain ⟨hnd2, hid2⟩ := phase2_inv A _ hnd1 hid1
  rw [mergeNews_def, List.map_map]
  exact List.map_congr_left fun p hp => hid2 p hp

/-- C4 (amended): re-merging the same batch reproduces the merged feed
with every `isNew` flag cleared — same id set (duplicate-free) and all
fields other than `isNew` unchanged; no record of the re-merge carries
`isNew = true`, so a cleared flag is never flipped back. -/
theorem claim_C4_amended_merge_idempotent (H A : List NewsItem) :
    mergeNews (mergeNews H A) A =
      (mergeNews H A).map (fun it => { it with isNew := false }) ∧
    ((mergeNews H A).map (fun it => it.id)).Nodup ∧
    (mergeNews (mergeNews H A) A).map (fun it => it.id) =
      (mergeNews H A).map (fun it => it.id) ∧
    ∀ it ∈ mergeNews (mergeNews H A) A, it.isNew = false := by
  obtain ⟨hnd1, hid1⟩ := phase1_inv H [] List.nodup_nil (by simp)
  obtain ⟨hnd2, hid2⟩ := phase2_inv A _ hnd1 hid1
  have hids : ((mergeNews H A).map (fun it => it.id)).Nodup := by
    rw [mergeNews_ids_eq_keys]
    exact hnd2
  have hmemA : ∀ a ∈ A, a.id ∈ (mergeNews H A).map (fun it => it.id) := by
    intro a ha
    rw [mergeNews_ids_eq_keys]
    exact phase2_ids_mem A _ a ha
  have hphase1 : (mergeNews H A).foldl
      (fun acc it => mapSet acc it.id { it with isNew := false }) [] =
      (mergeNews H A).map (fun it => (it.id, { it with isNew := false })) := by
    rw [phase1_eq (mergeNews H A) [] (by simp [mapKeys]) hids]
    simp
  have hkeys1 : mapKeys ((mergeNews H A).map
      (fun it => (it.id, { it with isNew := false }))) =
      (mergeNews H A).map (fun it => it.id) := by
    simp [mapKeys, List.map_map]
  have hmain : mergeNews (mergeNews H A) A =
      (mergeNews H A).map (fun it => { it with isNew := false }) := by
    rw [mergeNews_def (mergeNews H A) A, hphase1,
      phase2_noop A _ (by rw [hkeys1]; exact hmemA), List.map_map]
    rfl
  refine ⟨hmain, hids, ?_, ?_⟩
  · rw [hmain, List.map_map]
    rfl
  · intro it hit
    rw [hmain, List.mem_map] at hit
    obtain ⟨x, _, rfl⟩ := hit
    rfl

/-- Witness for C4: id uniqueness of a concrete merge. -/
theorem claim_C4_witness :
    ((mergeNews ([] : List NewsItem)
      [⟨"i".data, "t".data, "s".data, "src".data, "X".data, "u".data, "c".data,
        "tl".data, "d".data, false⟩]).map (fun it => it.id)).Nodup :=
  (claim_C4_amended_merge_idempotent []
    [⟨"i".data, "t".data, "s".data, "src".data, "X".data, "u".data, "c".data,
      "tl".data, "d".data, false⟩]).2.1

/-- Counterexample to C4 as stated: re-merging the same batch flips the
fresh record's `isNew` from `true` to `false`, so the two merges do not
agree on all field values. -/
theorem claim_C4_counterexample :
    (mergeNews ([] : List NewsItem)
        [⟨"i".data, "t".data, "s".data, "src".data, "X".data, "u".data, "c".data,
          "tl".data, "d".data, false⟩]).map (fun it => it.isNew) = [true] ∧
    (mergeNews (mergeNews ([] : List NewsItem)
        [⟨"i".data, "t".data, "s".data, "src".data, "X".data, "u".data, "c".data,
          "tl".data, "d".data, false⟩])
        [⟨"i".data, "t".data, "s".data, "src".data, "X".data, "u".data, "c".data,
          "tl".data, "d".data, false⟩]).map (fun it => it.isNew) = [false] ∧
    mergeNews (mergeNews ([] : List NewsItem)
        [⟨"i".data, "t".data, "s".data, "src".data, "X".data, "u".data, "c".data,
          "tl".data, "d".data, false⟩])
        [⟨"i".data, "t".data, "s".data, "src".data, "X".data, "u".data, "c".data,
          "tl".data, "d".data, false⟩] ≠
      mergeNews ([] : List NewsItem)
        [⟨"i".data, "t".data, "s".data, "src".data, "X".data, "u".data, "c".data,
          "tl".data, "d".data, false⟩] :=
  ⟨by decide, by decide, by decide⟩

/-- The comparator of `filteredNews` induces a transitive ordering. -/
theorem jsCmp_le_trans (getTime : Str → Int) (a b c : NewsItem)
    (hab : jsCmp getTime a b ≤ 0) (hbc : jsCmp getTime b c ≤ 0) :
    jsCmp getTime a c ≤ 0 := by
  unfold jsCmp at *
  rcases ha : a.isNew <;> rcases hb : b.isNew <;> rcases hc : c.isNew <;>
    simp_all <;> omega

/-- The comparator of `filteredNews` induces a total ordering. -/
theorem jsCmp_le_total (getTime : Str → Int) (a b : NewsItem) :
    jsCmp getTime a b ≤ 0 ∨ jsCmp getTime b a ≤ 0 := by
  unfold jsCmp
  rcases ha : a.isNew <;> rcases hb : b.isNew <;> simp <;> omega

/-- C9: the displayed ordering is a permutation of the filtered feed in
which every `isNew` item precedes every non-`isNew` item, and items of
equal `isNew` status are ordered by `publishedAt` time descending
(`getTime` standing for the runtime `new Date(·).getTime()`). -/
theorem claim_C9_sort_order (getTime : Str → Int) (items : List NewsItem) :
    (sortNews getTime items).Perm items ∧
    (sortNews getTime items).Pairwise fun a b =>
      (a.isNew = true ∧ b.isNew = false) ∨
      (a.isNew = b.isNew ∧ getTime b.publishedAt ≤ getTime a.publishedAt) := by
  constructor
  · exact List.mergeSort_perm items _
  · have hs : List.Pairwise (fun a b : NewsItem => decide (jsCmp getTime a b ≤ 0) = true)
        (items.mergeSort fun a b => decide (jsCmp getTime a b ≤ 0)) :=
      List.sorted_mergeSort
        (fun a b c hab hbc => by
          rw [decide_eq_true_eq] at *
          exact jsCmp_le_trans getTime a b c hab hbc)
        (fun a b => by
          rcases jsCmp_le_total getTime a b with h | h
          · simp [h]
          · simp [h])
        items
    refine List.Pairwise.imp ?_ hs
    intro a b hab
    rw [decide_eq_true_eq] at hab
    unfold jsCmp at hab
    rcases ha : a.isNew <;> rcases hb : b.isNew <;> rw [ha, hb] at hab
    · right
      refine ⟨rfl, ?_⟩
      simp at hab
      omega
    · simp at hab
    · left
      exact ⟨rfl, rfl⟩
    · right
      refine ⟨rfl, ?_⟩
      simp at hab
      omega

end VibePulse
